import Mathlib

/-!
# Versioned document tracker

A verification development for `2_PROJECT/Versioned_document_tracker.cpp`.

The class `VersionedDocument` holds a `std::string currentContent` and two
`std::stack<std::string>` histories.  A `std::string` is embedded as a
`List Char`, a `std::stack` as a `List` whose head is the top of the stack,
and every member function as a pure function from the state before the call
to the state after it, paired with the status line the function prints (and,
for `display` and `saveToFile`, with the text shown or written).
-/

namespace VersionedDocumentTracker

/-! ## The `std::string` and `std::stack` primitives used by the class -/

/-- The line terminator, the character literal `'\n'` of the source. -/
def newline : Char := Char.ofNat 10

/-- Guard `!s.empty() && s.back() == '\n'` (lines 33, 75, 100). -/
def backIsNewline (s : List Char) : Bool :=
  !s.isEmpty && (s.getLast? == some newline)

/-- Guard `!s.empty() && s.back() != '\n'` (lines 122, 137). -/
def backIsNotNewline (s : List Char) : Bool :=
  !s.isEmpty && (s.getLast? != some newline)

/-- Member `std::string::pop_back`: drop the last character. -/
def pop_back (s : List Char) : List Char := s.dropLast

/-- Member `std::string::find_last_of(ch)`: the greatest index holding `ch`,
or `none` for `string::npos`. -/
def find_last_of : List Char → Char → Option Nat
  | [], _ => none
  | x :: xs, ch =>
    match find_last_of xs ch with
    | some i => some (i + 1)
    | none => if x = ch then some 0 else none

/-- Member `std::string::substr(pos, len)` for `pos` within the string. -/
def substr (s : List Char) (pos len : Nat) : List Char := (s.drop pos).take len

/-- Loop `while (!st.empty()) st.pop();` on a stack. -/
def popAll {α : Type} : List α → List α
  | [] => []
  | _ :: rest => popAll rest

/-- Conversion of an integer to the 32-bit `int` of the source (two's
complement wrap-around). -/
def toInt32 (x : Int) : Int := (x + 2147483648) % 4294967296 - 2147483648

/-! ## The class state and the status lines -/

/-- The three data members of `class VersionedDocument` (lines 11-13).  The
head of each list is the top of the stack. -/
structure VersionedDocument where
  currentContent : List Char
  undoStack : List (List Char)
  redoStack : List (List Char)
  deriving DecidableEq, Repr

/-- The status line a member function writes to `cout`. -/
inductive Message where
  /-- Line 20, `Text inserted.` -/
  | textInserted
  /-- Lines 25 and 86, `Document is already empty.`, the `EmptyDocument` error. -/
  | documentAlreadyEmpty
  /-- Line 43, `Last line deleted.` -/
  | lastLineDeleted
  /-- Line 51, `Undo successful.` -/
  | undoSuccessful
  /-- Line 53, `Nothing to undo.`, the `NoHistory` error of undo. -/
  | nothingToUndo
  /-- Line 62, `Redo successful.` -/
  | redoSuccessful
  /-- Line 64, `Nothing to redo.`, the `NoHistory` error of redo. -/
  | nothingToRedo
  /-- Line 92, `Document cleared.` -/
  | documentCleared
  /-- Line 127, `Document loaded from ...` -/
  | documentLoaded
  /-- Line 129, `File not found: ...`, the `SourceUnavailable` error. -/
  | fileNotFound
  /-- Line 105, `Document saved to ...` -/
  | documentSaved
  /-- Line 107, `Failed to create file: ...`, the `DestinationUnwritable` error. -/
  | failedToCreateFile
  /-- Line 180, `Cannot insert empty text.`, printed by `main`. -/
  | cannotInsertEmptyText
  deriving DecidableEq, Repr

/-- The default-constructed document of `main` (line 162): empty content and
two empty stacks. -/
def fresh : VersionedDocument := VersionedDocument.mk [] [] []

/-! ## The member functions -/

/-- Function `insertText` (lines 16-21). -/
def insertText (newText : List Char) (d : VersionedDocument) :
    VersionedDocument × Message :=
  let undoStack := d.currentContent :: d.undoStack
  let redoStack := popAll d.redoStack
  let currentContent := d.currentContent ++ (newText ++ [newline])
  (VersionedDocument.mk currentContent undoStack redoStack, Message.textInserted)

/-- Function `deleteLastLine` (lines 23-44). -/
def deleteLastLine (d : VersionedDocument) : VersionedDocument × Message :=
  if d.currentContent.isEmpty then
    (d, Message.documentAlreadyEmpty)
  else
    let undoStack := d.currentContent :: d.undoStack
    let redoStack := popAll d.redoStack
    let stripped :=
      if backIsNewline d.currentContent then pop_back d.currentContent
      else d.currentContent
    let currentContent :=
      match find_last_of stripped newline with
      | some lastNewLine => substr stripped 0 (lastNewLine + 1)
      | none => []
    (VersionedDocument.mk currentContent undoStack redoStack, Message.lastLineDeleted)

/-- Function `undo` (lines 46-55). -/
def undo (d : VersionedDocument) : VersionedDocument × Message :=
  match d.undoStack with
  | top :: rest =>
    (VersionedDocument.mk top rest (d.currentContent :: d.redoStack),
      Message.undoSuccessful)
  | [] => (d, Message.nothingToUndo)

/-- Function `redo` (lines 57-66). -/
def redo (d : VersionedDocument) : VersionedDocument × Message :=
  match d.redoStack with
  | top :: rest =>
    (VersionedDocument.mk top (d.currentContent :: d.undoStack) rest,
      Message.redoSuccessful)
  | [] => (d, Message.nothingToRedo)

/-- Function `clear` (lines 84-93). -/
def clear (d : VersionedDocument) : VersionedDocument × Message :=
  if d.currentContent.isEmpty then
    (d, Message.documentAlreadyEmpty)
  else
    let undoStack := d.currentContent :: d.undoStack
    let redoStack := popAll d.redoStack
    (VersionedDocument.mk [] undoStack redoStack, Message.documentCleared)

/-- Function `loadFromFile` (lines 111-131).  The argument `file` is what
opening the named file gives: `none` when `inFile.is_open()` is false, and
`some bytes` otherwise, with the characters that `buffer << inFile.rdbuf()`
transferred: the whole file when the read succeeds, and what was obtained
before the failure (nothing at all for a directory) when it does not.  The
function never tests the stream after the read. -/
def loadFromFile (file : Option (List Char)) (d : VersionedDocument) :
    VersionedDocument × Message :=
  match file with
  | some bytes =>
    let undoStack := d.currentContent :: d.undoStack
    let redoStack := popAll d.redoStack
    let currentContent :=
      if backIsNotNewline bytes then bytes ++ [newline] else bytes
    (VersionedDocument.mk currentContent undoStack redoStack, Message.documentLoaded)
  | none => (d, Message.fileNotFound)

/-- Function `countLines` (lines 133-141) on the content string.  The result
of `std::count` is narrowed to `int`, and `lines++` is taken modulo `2^32`. -/
def countLines (currentContent : List Char) : Int :=
  if currentContent.isEmpty then 0
  else
    let lines := toInt32 (currentContent.count newline)
    if backIsNotNewline currentContent then toInt32 (lines + 1) else lines

/-- Function `display` (lines 68-82).  No member is assigned, so the state is
returned as it was.  The second component is the text written between the
header and the rule (before the `"\n"` that closes it): the placeholder
`[Empty Document]` for empty content, the local `displayContent` otherwise.
The third component is the `Total Lines` figure. -/
def display (d : VersionedDocument) : VersionedDocument × List Char × Int :=
  let shown :=
    if d.currentContent.isEmpty then "[Empty Document]".toList
    else
      let displayContent := d.currentContent
      if backIsNewline displayContent then pop_back displayContent else displayContent
  (d, shown, countLines d.currentContent)

/-- Function `saveToFile` (lines 95-109).  The argument `isOpen` is the value
of `outFile.is_open()`.  No member is assigned, so the state is returned as it
was.  The second component is the text written to the file, the local
`saveContent`, or `none` when the file could not be created. -/
def saveToFile (isOpen : Bool) (d : VersionedDocument) :
    VersionedDocument × Option (List Char) × Message :=
  if isOpen then
    let saveContent := d.currentContent
    let saveContent := if backIsNewline saveContent then pop_back saveContent else saveContent
    (d, some saveContent, Message.documentSaved)
  else
    (d, none, Message.failedToCreateFile)

/-- Case 1 of the `switch` in `main` (lines 174-182): the text read from the
console reaches `insertText` only when it is not empty. -/
def mainCase1 (text : List Char) (doc : VersionedDocument) : VersionedDocument × Message :=
  if !text.isEmpty then insertText text doc
  else (doc, Message.cannotInsertEmptyText)

/-! ## Operation sequences -/

/-- The mutating operations a session can issue, the cases 1, 2, 3, 4, 6 and 8
of the `switch` in `main`. -/
inductive Op where
  | insertText (newText : List Char)
  | deleteLastLine
  | undo
  | redo
  | clear
  | loadFromFile (file : Option (List Char))
  deriving DecidableEq, Repr

/-- One operation applied to a document. -/
def step (op : Op) (d : VersionedDocument) : VersionedDocument × Message :=
  match op with
  | Op.insertText newText => insertText newText d
  | Op.deleteLastLine => deleteLastLine d
  | Op.undo => undo d
  | Op.redo => redo d
  | Op.clear => clear d
  | Op.loadFromFile file => loadFromFile file d

/-- A sequence of operations applied from left to right. -/
def run : List Op → VersionedDocument → VersionedDocument
  | [], d => d
  | op :: ops, d => run ops (step op d).1

/-- An edit that takes effect in state `d`: an insert, a `deleteLastLine` or
`clear` on non-empty content, or a load whose file could be opened.  Undo and
redo are not edits. -/
def takesEffect (op : Op) (d : VersionedDocument) : Bool :=
  match op with
  | Op.insertText _ => true
  | Op.deleteLastLine => !d.currentContent.isEmpty
  | Op.undo => false
  | Op.redo => false
  | Op.clear => !d.currentContent.isEmpty
  | Op.loadFromFile file => file.isSome

/-- Every operation of the sequence is an edit that takes effect in the state
it is applied to. -/
def allTakeEffect : List Op → VersionedDocument → Bool
  | [], _ => true
  | op :: ops, d => takesEffect op d && allTakeEffect ops (step op d).1

/-- The function `undo` called `n` times in a row: the final state and the
status lines in the order printed. -/
def undoTimes : Nat → VersionedDocument → VersionedDocument × List Message
  | 0, d => (d, [])
  | n + 1, d =>
    let r := undoTimes n (undo d).1
    (r.1, (undo d).2 :: r.2)

/-- Canonical form of a string: empty, or ending in the line terminator. -/
def canonical (s : List Char) : Prop := s = [] ∨ s.getLast? = some newline

/-- Canonical form of the whole state: the content and every snapshot on
either stack. -/
def canonicalState (d : VersionedDocument) : Prop :=
  canonical d.currentContent ∧ (∀ s ∈ d.undoStack, canonical s) ∧
    ∀ s ∈ d.redoStack, canonical s

/-- The function `deleteLastLine` called `n` times in a row. -/
def deleteLastLineTimes : Nat → VersionedDocument → VersionedDocument
  | 0, d => d
  | n + 1, d => deleteLastLineTimes n (deleteLastLine d).1

/-- The oldest content a state remembers: the bottom of the undo stack, or the
current content when the undo stack is empty. -/
def oldestContent (d : VersionedDocument) : List Char :=
  (d.currentContent :: d.undoStack).getLast (List.cons_ne_nil _ _)

/-- The number of lines as a natural number: the terminators, plus one for a
final line that is not terminated. -/
def lineTotal (c : List Char) : Nat :=
  c.count newline + (if backIsNotNewline c then 1 else 0)

/-- The timeline of a state: the undo stack from its oldest entry to its
newest, then the current content, then the redo stack from its newest entry
to its oldest. -/
def timeline (d : VersionedDocument) : List (List Char) :=
  d.undoStack.reverse ++ [d.currentContent] ++ d.redoStack

/-! ## Basic facts about the primitives -/

theorem popAll_eq_nil {α : Type} (st : List α) : popAll st = [] := by
  induction st with
  | nil => rfl
  | cons _ rest ih => simpa [popAll] using ih

theorem isEmpty_eq_false_of_ne_nil (s : List Char) (h : s ≠ []) : s.isEmpty = false := by
  cases s with
  | nil => exact absurd rfl h
  | cons _ _ => rfl

theorem takesEffect_undoStack (s : VersionedDocument) (e : Op) (h : takesEffect e s = true) :
    (step e s).1.undoStack = s.currentContent :: s.undoStack := by
  cases e with
  | insertText t => rfl
  | deleteLastLine =>
    simp only [takesEffect, Bool.not_eq_true'] at h
    simp [step, deleteLastLine, h]
  | undo => simp [takesEffect] at h
  | redo => simp [takesEffect] at h
  | clear =>
    simp only [takesEffect, Bool.not_eq_true'] at h
    simp [step, clear, h]
  | loadFromFile file =>
    cases file with
    | none => simp [takesEffect] at h
    | some bytes => rfl

theorem takesEffect_redoStack (s : VersionedDocument) (e : Op) (h : takesEffect e s = true) :
    (step e s).1.redoStack = [] := by
  cases e with
  | insertText t => simp [step, insertText, popAll_eq_nil]
  | deleteLastLine =>
    simp only [takesEffect, Bool.not_eq_true'] at h
    simp [step, deleteLastLine, h, popAll_eq_nil]
  | undo => simp [takesEffect] at h
  | redo => simp [takesEffect] at h
  | clear =>
    simp only [takesEffect, Bool.not_eq_true'] at h
    simp [step, clear, h, popAll_eq_nil]
  | loadFromFile file =>
    cases file with
    | none => simp [takesEffect] at h
    | some bytes => simp [step, loadFromFile, popAll_eq_nil]

theorem undo_of_cons (s : VersionedDocument) (t : List Char) (rest : List (List Char))
    (h : s.undoStack = t :: rest) :
    undo s = (VersionedDocument.mk t rest (s.currentContent :: s.redoStack),
      Message.undoSuccessful) := by
  simp [undo, h]

theorem redo_of_cons (s : VersionedDocument) (t : List Char) (rest : List (List Char))
    (h : s.redoStack = t :: rest) :
    redo s = (VersionedDocument.mk t (s.currentContent :: s.undoStack) rest,
      Message.redoSuccessful) := by
  simp [redo, h]

theorem undo_of_nil (s : VersionedDocument) (h : s.undoStack = []) :
    undo s = (s, Message.nothingToUndo) := by
  simp [undo, h]

theorem redo_of_nil (s : VersionedDocument) (h : s.redoStack = []) :
    redo s = (s, Message.nothingToRedo) := by
  simp [redo, h]

/-! ## Undo and redo around a single edit -/

/-- Claim C1.  For every state `s` and every edit `e` that takes effect in
`s`, an undo issued right after `e` succeeds and restores the content of `s`,
and a redo issued right after that undo succeeds and restores the content
that `e` produced. -/
theorem undo_redo_invert_single_edit (s : VersionedDocument) (e : Op)
    (h : takesEffect e s = true) :
    (undo (step e s).1).2 = Message.undoSuccessful ∧
    (undo (step e s).1).1.currentContent = s.currentContent ∧
    (redo (undo (step e s).1).1).2 = Message.redoSuccessful ∧
    (redo (undo (step e s).1).1).1.currentContent = (step e s).1.currentContent := by
  have hu := takesEffect_undoStack s e h
  have hr := takesEffect_redoStack s e h
  have h1 := undo_of_cons (step e s).1 _ _ hu
  rw [h1]
  refine ⟨rfl, rfl, ?_, ?_⟩ <;> simp [redo, hr]

theorem undo_redo_invert_single_edit_witness :
    (undo (step Op.deleteLastLine
        (VersionedDocument.mk "a\nb\n".toList [] ["a\nb\nc\n".toList])).1).2
      = Message.undoSuccessful ∧
    (undo (step Op.deleteLastLine
        (VersionedDocument.mk "a\nb\n".toList [] ["a\nb\nc\n".toList])).1).1.currentContent
      = "a\nb\n".toList ∧
    (redo (undo (step Op.deleteLastLine
        (VersionedDocument.mk "a\nb\n".toList [] ["a\nb\nc\n".toList])).1).1).2
      = Message.redoSuccessful ∧
    (redo (undo (step Op.deleteLastLine
        (VersionedDocument.mk "a\nb\n".toList [] ["a\nb\nc\n".toList])).1).1).1.currentContent
      = "a\n".toList :=
  undo_redo_invert_single_edit
    (VersionedDocument.mk "a\nb\n".toList [] ["a\nb\nc\n".toList]) Op.deleteLastLine
    (by decide)

/-! ## Rewinding a whole edit history -/

theorem oldestContent_step (s : VersionedDocument) (e : Op) (h : takesEffect e s = true) :
    oldestContent (step e s).1 = oldestContent s := by
  unfold oldestContent
  simp only [takesEffect_undoStack s e h]
  rw [List.getLast_cons (List.cons_ne_nil _ _)]

theorem run_allTakeEffect (es : List Op) :
    ∀ s : VersionedDocument, allTakeEffect es s = true →
      (run es s).undoStack.length = es.length + s.undoStack.length ∧
      oldestContent (run es s) = oldestContent s := by
  induction es with
  | nil => intro s _; simp [run]
  | cons e es ih =>
    intro s h
    simp only [allTakeEffect, Bool.and_eq_true] at h
    obtain ⟨h1, h2⟩ := ih (step e s).1 h.2
    refine ⟨?_, ?_⟩
    · simp only [run, h1, takesEffect_undoStack s e h.1, List.length_cons]
      omega
    · simp only [run, h2, oldestContent_step s e h.1]

theorem undoTimes_full (n : Nat) :
    ∀ s : VersionedDocument, s.undoStack.length = n →
      (undoTimes n s).2 = List.replicate n Message.undoSuccessful ∧
      (undoTimes n s).1.currentContent = oldestContent s ∧
      (undoTimes n s).1.undoStack = [] := by
  induction n with
  | zero =>
    intro s h
    have h0 : s.undoStack = [] := List.length_eq_zero.mp h
    simp [undoTimes, oldestContent, h0]
  | succ n ih =>
    intro s h
    obtain ⟨c, u, r⟩ := s
    cases u with
    | nil => simp at h
    | cons t rest =>
      have hu : undo (VersionedDocument.mk c (t :: rest) r)
          = (VersionedDocument.mk t rest (c :: r), Message.undoSuccessful) := rfl
      have hl : (VersionedDocument.mk t rest (c :: r)).undoStack.length = n := by
        simpa using h
      obtain ⟨h1, h2, h3⟩ := ih _ hl
      simp only [undoTimes, hu, h1, h2, h3, List.replicate_succ]
      refine ⟨trivial, ?_, trivial⟩
      simp only [oldestContent]
      rw [List.getLast_cons (List.cons_ne_nil _ _)]

/-- Claim C2.  For every sequence of `n` edits that each take effect, applied
to the freshly constructed document, `n` consecutive undos all succeed and
leave the content and the undo stack empty, and one further undo reports
`NoHistory` (prints `Nothing to undo.`). -/
theorem undos_rewind_all_edits (es : List Op) (h : allTakeEffect es fresh = true) :
    (undoTimes es.length (run es fresh)).2
      = List.replicate es.length Message.undoSuccessful ∧
    (undoTimes es.length (run es fresh)).1.currentContent = [] ∧
    (undoTimes es.length (run es fresh)).1.undoStack = [] ∧
    (undo (undoTimes es.length (run es fresh)).1).2 = Message.nothingToUndo := by
  obtain ⟨hl, ho⟩ := run_allTakeEffect es fresh h
  have hl2 : (run es fresh).undoStack.length = es.length := by simpa [fresh] using hl
  obtain ⟨h1, h2, h3⟩ := undoTimes_full es.length (run es fresh) hl2
  refine ⟨h1, ?_, h3, ?_⟩
  · rw [h2, ho]; rfl
  · rw [undo_of_nil _ h3]

theorem undos_rewind_all_edits_witness :
    (undoTimes 4 (run [Op.insertText "a".toList, Op.loadFromFile (some "x\ny".toList),
        Op.deleteLastLine, Op.clear] fresh)).2
      = [Message.undoSuccessful, Message.undoSuccessful, Message.undoSuccessful,
          Message.undoSuccessful] ∧
    (undoTimes 4 (run [Op.insertText "a".toList, Op.loadFromFile (some "x\ny".toList),
        Op.deleteLastLine, Op.clear] fresh)).1.currentContent = [] ∧
    (undoTimes 4 (run [Op.insertText "a".toList, Op.loadFromFile (some "x\ny".toList),
        Op.deleteLastLine, Op.clear] fresh)).1.undoStack = [] ∧
    (undo (undoTimes 4 (run [Op.insertText "a".toList, Op.loadFromFile (some "x\ny".toList),
        Op.deleteLastLine, Op.clear] fresh)).1).2 = Message.nothingToUndo :=
  undos_rewind_all_edits [Op.insertText "a".toList, Op.loadFromFile (some "x\ny".toList),
    Op.deleteLastLine, Op.clear] (by decide)

/-! ## Redo branch discard -/

/-- Claim C3.  For every state and every edit that takes effect, the redo
stack is empty after the edit, and a redo issued immediately afterwards
reports `NoHistory` (prints `Nothing to redo.`) and changes neither the
content nor either stack.  The scenario insert "hello", insert "world", undo,
undo, redo, insert "zzz" ends with content "hello\nzzz\n" and the next redo
reports `NoHistory`. -/
theorem redo_branch_discard (s : VersionedDocument) (e : Op) (h : takesEffect e s = true) :
    (step e s).1.redoStack = [] ∧
    redo (step e s).1 = ((step e s).1, Message.nothingToRedo) ∧
    (run [Op.insertText "hello".toList, Op.insertText "world".toList, Op.undo, Op.undo,
        Op.redo, Op.insertText "zzz".toList] fresh).currentContent = "hello\nzzz\n".toList ∧
    (redo (run [Op.insertText "hello".toList, Op.insertText "world".toList, Op.undo, Op.undo,
        Op.redo, Op.insertText "zzz".toList] fresh)).2 = Message.nothingToRedo := by
  have hr := takesEffect_redoStack s e h
  exact ⟨hr, redo_of_nil _ hr, by decide, by decide⟩

theorem redo_branch_discard_witness :
    (step (Op.insertText "zzz".toList)
      (VersionedDocument.mk "hello\n".toList [[]] ["hello\nworld\n".toList])).1.redoStack = [] ∧
    redo (step (Op.insertText "zzz".toList)
      (VersionedDocument.mk "hello\n".toList [[]] ["hello\nworld\n".toList])).1
      = (VersionedDocument.mk "hello\nzzz\n".toList ["hello\n".toList, []] [],
          Message.nothingToRedo) :=
  have h := redo_branch_discard
    (VersionedDocument.mk "hello\n".toList [[]] ["hello\nworld\n".toList])
    (Op.insertText "zzz".toList) (by decide)
  ⟨h.1, h.2.1⟩

/-! ## Rejected operations -/

theorem deleteLastLine_of_nil (s : VersionedDocument) (h : s.currentContent = []) :
    deleteLastLine s = (s, Message.documentAlreadyEmpty) := by
  simp [deleteLastLine, h]

theorem clear_of_nil (s : VersionedDocument) (h : s.currentContent = []) :
    clear s = (s, Message.documentAlreadyEmpty) := by
  simp [clear, h]

theorem deleteLastLine_message_of_ne_nil (s : VersionedDocument) (h : s.currentContent ≠ []) :
    (deleteLastLine s).2 = Message.lastLineDeleted := by
  simp [deleteLastLine, isEmpty_eq_false_of_ne_nil _ h]

theorem clear_message_of_ne_nil (s : VersionedDocument) (h : s.currentContent ≠ []) :
    (clear s).2 = Message.documentCleared := by
  simp [clear, isEmpty_eq_false_of_ne_nil _ h]

theorem iterate_fst_of_fixed (f : VersionedDocument → VersionedDocument × Message)
    (s : VersionedDocument) (h : (f s).1 = s) (k : Nat) :
    Nat.iterate (fun d => (f d).1) k s = s :=
  Function.iterate_fixed h k

/-- Claim C4.  The function `deleteLastLine` reports `EmptyDocument` exactly
when the content is empty, and so does `clear`; `undo` reports `NoHistory`
exactly when the undo stack is empty, and `redo` exactly when the redo stack
is empty.  Whenever one of these errors is reported the whole state (content
and both stacks) is the one before the call, also after any number of
repetitions of the rejected call. -/
theorem rejected_operations_change_nothing (s : VersionedDocument) :
    ((deleteLastLine s).2 = Message.documentAlreadyEmpty ↔ s.currentContent = []) ∧
    ((clear s).2 = Message.documentAlreadyEmpty ↔ s.currentContent = []) ∧
    ((undo s).2 = Message.nothingToUndo ↔ s.undoStack = []) ∧
    ((redo s).2 = Message.nothingToRedo ↔ s.redoStack = []) ∧
    ((deleteLastLine s).2 = Message.documentAlreadyEmpty →
      (deleteLastLine s).1 = s ∧ ∀ k, Nat.iterate (fun d => (deleteLastLine d).1) k s = s) ∧
    ((clear s).2 = Message.documentAlreadyEmpty →
      (clear s).1 = s ∧ ∀ k, Nat.iterate (fun d => (clear d).1) k s = s) ∧
    ((undo s).2 = Message.nothingToUndo →
      (undo s).1 = s ∧ ∀ k, Nat.iterate (fun d => (undo d).1) k s = s) ∧
    ((redo s).2 = Message.nothingToRedo →
      (redo s).1 = s ∧ ∀ k, Nat.iterate (fun d => (redo d).1) k s = s) := by
  have hd : (deleteLastLine s).2 = Message.documentAlreadyEmpty ↔ s.currentContent = [] := by
    constructor
    · intro h
      by_contra hne
      rw [deleteLastLine_message_of_ne_nil s hne] at h
      exact Message.noConfusion h
    · intro h; rw [deleteLastLine_of_nil s h]
  have hc : (clear s).2 = Message.documentAlreadyEmpty ↔ s.currentContent = [] := by
    constructor
    · intro h
      by_contra hne
      rw [clear_message_of_ne_nil s hne] at h
      exact Message.noConfusion h
    · intro h; rw [clear_of_nil s h]
  have hu : (undo s).2 = Message.nothingToUndo ↔ s.undoStack = [] := by
    constructor
    · intro h
      cases hs : s.undoStack with
      | nil => rfl
      | cons t rest =>
        rw [undo_of_cons s t rest hs] at h
        exact Message.noConfusion h
    · intro h; rw [undo_of_nil s h]
  have hr : (redo s).2 = Message.nothingToRedo ↔ s.redoStack = [] := by
    constructor
    · intro h
      cases hs : s.redoStack with
      | nil => rfl
      | cons t rest =>
        rw [redo_of_cons s t rest hs] at h
        exact Message.noConfusion h
    · intro h; rw [redo_of_nil s h]
  refine ⟨hd, hc, hu, hr, ?_, ?_, ?_, ?_⟩
  · intro h
    have h1 : (deleteLastLine s).1 = s := by rw [deleteLastLine_of_nil s (hd.mp h)]
    exact ⟨h1, iterate_fst_of_fixed deleteLastLine s h1⟩
  · intro h
    have h1 : (clear s).1 = s := by rw [clear_of_nil s (hc.mp h)]
    exact ⟨h1, iterate_fst_of_fixed clear s h1⟩
  · intro h
    have h1 : (undo s).1 = s := by rw [undo_of_nil s (hu.mp h)]
    exact ⟨h1, iterate_fst_of_fixed undo s h1⟩
  · intro h
    have h1 : (redo s).1 = s := by rw [redo_of_nil s (hr.mp h)]
    exact ⟨h1, iterate_fst_of_fixed redo s h1⟩

theorem rejected_operations_change_nothing_witness :
    (deleteLastLine (VersionedDocument.mk [] ["a\n".toList, []] ["b\n".toList])).1
      = VersionedDocument.mk [] ["a\n".toList, []] ["b\n".toList] ∧
    Nat.iterate (fun d => (deleteLastLine d).1) 3
        (VersionedDocument.mk [] ["a\n".toList, []] ["b\n".toList])
      = VersionedDocument.mk [] ["a\n".toList, []] ["b\n".toList] ∧
    (clear (VersionedDocument.mk [] ["a\n".toList, []] ["b\n".toList])).1
      = VersionedDocument.mk [] ["a\n".toList, []] ["b\n".toList] ∧
    Nat.iterate (fun d => (clear d).1) 3
        (VersionedDocument.mk [] ["a\n".toList, []] ["b\n".toList])
      = VersionedDocument.mk [] ["a\n".toList, []] ["b\n".toList] ∧
    (undo (VersionedDocument.mk [] [] ["a\n".toList])).1
      = VersionedDocument.mk [] [] ["a\n".toList] ∧
    Nat.iterate (fun d => (undo d).1) 3 (VersionedDocument.mk [] [] ["a\n".toList])
      = VersionedDocument.mk [] [] ["a\n".toList] ∧
    (redo (VersionedDocument.mk "a\n".toList [[]] [])).1
      = VersionedDocument.mk "a\n".toList [[]] [] ∧
    Nat.iterate (fun d => (redo d).1) 3 (VersionedDocument.mk "a\n".toList [[]] [])
      = VersionedDocument.mk "a\n".toList [[]] [] :=
  have hA := rejected_operations_change_nothing
    (VersionedDocument.mk [] ["a\n".toList, []] ["b\n".toList])
  have hU := rejected_operations_change_nothing (VersionedDocument.mk [] [] ["a\n".toList])
  have hR := rejected_operations_change_nothing (VersionedDocument.mk "a\n".toList [[]] [])
  have h5 := hA.2.2.2.2.1 (by decide)
  have h6 := hA.2.2.2.2.2.1 (by decide)
  have h7 := hU.2.2.2.2.2.2.1 (by decide)
  have h8 := hR.2.2.2.2.2.2.2 (by decide)
  ⟨h5.1, h5.2 3, h6.1, h6.2 3, h7.1, h7.2 3, h8.1, h8.2 3⟩

/-! ## The two history protocols -/

/-- Claim C5 (Invariant A).  For every state and every operation other than
undo and redo that takes effect (an insert, a `deleteLastLine` or `clear` on
non-empty content, a successful load), the undo stack after the call is the
undo stack before the call with the content before the call pushed on top,
and the redo stack after the call is empty. -/
theorem snapshot_then_mutate (s : VersionedDocument) (e : Op) (h : takesEffect e s = true) :
    (step e s).1.undoStack = s.currentContent :: s.undoStack ∧
    (step e s).1.redoStack = [] :=
  ⟨takesEffect_undoStack s e h, takesEffect_redoStack s e h⟩

theorem snapshot_then_mutate_witness :
    (step Op.clear
      (VersionedDocument.mk "b\n".toList ["a\n".toList, []] ["b\nc\n".toList])).1.undoStack
      = ["b\n".toList, "a\n".toList, []] ∧
    (step Op.clear
      (VersionedDocument.mk "b\n".toList ["a\n".toList, []] ["b\nc\n".toList])).1.redoStack
      = [] :=
  snapshot_then_mutate
    (VersionedDocument.mk "b\n".toList ["a\n".toList, []] ["b\nc\n".toList]) Op.clear
    (by decide)

/-- Claim C6 (Invariant B).  In a state whose undo stack has top entry `t`,
undo succeeds, makes `t` the content, pops `t` off the undo stack and pushes
the old content on the redo stack.  In a state whose redo stack has top entry
`t`, redo succeeds, makes `t` the content, pops `t` off the redo stack and
pushes the old content on the undo stack. -/
theorem undo_redo_transitions (s : VersionedDocument) :
    (∀ t rest, s.undoStack = t :: rest →
      undo s = (VersionedDocument.mk t rest (s.currentContent :: s.redoStack),
        Message.undoSuccessful)) ∧
    (∀ t rest, s.redoStack = t :: rest →
      redo s = (VersionedDocument.mk t (s.currentContent :: s.undoStack) rest,
        Message.redoSuccessful)) :=
  ⟨fun t rest h => undo_of_cons s t rest h, fun t rest h => redo_of_cons s t rest h⟩

theorem undo_redo_transitions_witness :
    undo (VersionedDocument.mk "a\nb\n".toList ["a\n".toList, []] ["a\nb\nc\n".toList])
      = (VersionedDocument.mk "a\n".toList [[]] ["a\nb\n".toList, "a\nb\nc\n".toList],
          Message.undoSuccessful) ∧
    redo (VersionedDocument.mk "a\nb\n".toList ["a\n".toList, []] ["a\nb\nc\n".toList])
      = (VersionedDocument.mk "a\nb\nc\n".toList ["a\nb\n".toList, "a\n".toList, []] [],
          Message.redoSuccessful) :=
  have h := undo_redo_transitions
    (VersionedDocument.mk "a\nb\n".toList ["a\n".toList, []] ["a\nb\nc\n".toList])
  ⟨h.1 _ _ rfl, h.2 _ _ rfl⟩

/-! ## What `deleteLastLine` leaves behind -/

theorem backIsNewline_iff (s : List Char) :
    backIsNewline s = true ↔ s.getLast? = some newline := by
  cases s with
  | nil => simp [backIsNewline]
  | cons x xs => simp [backIsNewline]

theorem backIsNotNewline_iff (s : List Char) :
    backIsNotNewline s = true ↔ s ≠ [] ∧ s.getLast? ≠ some newline := by
  cases s with
  | nil => simp [backIsNotNewline]
  | cons x xs => simp [backIsNotNewline]

theorem find_last_of_none (ch : Char) :
    ∀ s : List Char, find_last_of s ch = none → ch ∉ s := by
  intro s
  induction s with
  | nil => intro _; simp
  | cons x xs ih =>
    intro h
    unfold find_last_of at h
    cases hxs : find_last_of xs ch with
    | some j => simp [hxs] at h
    | none =>
      simp only [hxs] at h
      by_cases hx : x = ch
      · simp [hx] at h
      · intro hmem
        rcases List.mem_cons.mp hmem with h1 | h1
        · exact hx h1.symm
        · exact ih hxs h1

theorem find_last_of_some (ch : Char) :
    ∀ (s : List Char) (i : Nat), find_last_of s ch = some i →
      ∃ post, s = s.take i ++ ch :: post ∧ ch ∉ post ∧ i < s.length := by
  intro s
  induction s with
  | nil => intro i h; simp [find_last_of] at h
  | cons x xs ih =>
    intro i h
    unfold find_last_of at h
    cases hxs : find_last_of xs ch with
    | some j =>
      simp only [hxs, Option.some.injEq] at h
      obtain ⟨post, h1, h2, h3⟩ := ih j hxs
      refine ⟨post, ?_, h2, ?_⟩
      · rw [← h, List.take_succ_cons, List.cons_append, ← h1]
      · rw [← h, List.length_cons]; omega
    | none =>
      simp only [hxs] at h
      by_cases hx : x = ch
      · simp only [hx, if_true, Option.some.injEq] at h
        refine ⟨xs, ?_, find_last_of_none ch xs hxs, ?_⟩
        · rw [← h, hx]; rfl
        · rw [← h, List.length_cons]; omega
      · simp [hx] at h

theorem canonical_nil : canonical [] := Or.inl rfl

theorem canonical_concat (s : List Char) : canonical (s ++ [newline]) :=
  Or.inr (List.getLast?_concat s)

/-- The string the source keeps in `deleteLastLine` after the optional
`pop_back`: everything through the last terminator, or nothing. -/
theorem keep_through_last_newline (stripped : List Char) :
    ∃ rest, stripped =
        (match find_last_of stripped newline with
          | some lastNewLine => substr stripped 0 (lastNewLine + 1)
          | none => []) ++ rest ∧
      newline ∉ rest ∧
      canonical (match find_last_of stripped newline with
          | some lastNewLine => substr stripped 0 (lastNewLine + 1)
          | none => []) := by
  cases hf : find_last_of stripped newline with
  | none =>
    exact ⟨stripped, by simp, find_last_of_none newline stripped hf, canonical_nil⟩
  | some i =>
    obtain ⟨post, h1, h2, h3⟩ := find_last_of_some newline stripped i hf
    have hk : substr stripped 0 (i + 1) = stripped.take i ++ [newline] := by
      have hlen : (stripped.take i).length = i := by
        rw [List.length_take]; omega
      unfold substr
      rw [List.drop_zero]
      conv_lhs => rw [h1]
      rw [List.take_append_eq_append_take, hlen]
      have e1 : i + 1 - i = 1 := by omega
      rw [e1, List.take_of_length_le (by rw [hlen]; omega)]
      rfl
    refine ⟨post, ?_, h2, ?_⟩
    · simp only [hk]
      rw [List.append_assoc]
      exact h1
    · simp only [hk]
      exact canonical_concat _

theorem deleteLastLine_content (d : VersionedDocument) (h : d.currentContent ≠ []) :
    ∃ rest,
      (if backIsNewline d.currentContent then pop_back d.currentContent
        else d.currentContent) = (deleteLastLine d).1.currentContent ++ rest ∧
      newline ∉ rest ∧ canonical (deleteLastLine d).1.currentContent := by
  have he := isEmpty_eq_false_of_ne_nil _ h
  simp only [deleteLastLine, he, Bool.false_eq_true, if_false]
  exact keep_through_last_newline _

/-! ## The canonical form is kept by every operation -/

theorem canonical_insert (c t : List Char) : canonical (c ++ (t ++ [newline])) := by
  rw [← List.append_assoc]
  exact canonical_concat _

theorem canonical_load (bytes : List Char) :
    canonical (if backIsNotNewline bytes then bytes ++ [newline] else bytes) := by
  by_cases hb : backIsNotNewline bytes = true
  · simp only [hb, if_true]
    exact canonical_concat _
  · simp only [hb, Bool.false_eq_true, if_false]
    by_cases hn : bytes = []
    · exact Or.inl hn
    · right
      by_contra hl
      exact hb ((backIsNotNewline_iff bytes).mpr ⟨hn, hl⟩)

theorem canonical_push (c : List Char) (st : List (List Char)) (hc : canonical c)
    (hst : ∀ s ∈ st, canonical s) : ∀ s ∈ c :: st, canonical s := by
  intro s hs
  rcases List.mem_cons.mp hs with h | h
  · rw [h]; exact hc
  · exact hst s h

theorem canonical_empty_stack : ∀ s ∈ ([] : List (List Char)), canonical s := by
  intro s hs
  exact absurd hs (List.not_mem_nil s)

theorem step_canonicalState (op : Op) (d : VersionedDocument) (h : canonicalState d) :
    canonicalState (step op d).1 := by
  obtain ⟨hc, hu, hr⟩ := h
  cases op with
  | insertText t =>
    refine ⟨canonical_insert _ _, canonical_push _ _ hc hu, ?_⟩
    simp only [step, insertText, popAll_eq_nil]
    exact canonical_empty_stack
  | deleteLastLine =>
    by_cases hn : d.currentContent = []
    · rw [step, deleteLastLine_of_nil d hn]
      exact ⟨hc, hu, hr⟩
    · obtain ⟨_, _, _, h3⟩ := deleteLastLine_content d hn
      have ht : takesEffect Op.deleteLastLine d = true := by
        simp [takesEffect, isEmpty_eq_false_of_ne_nil _ hn]
      refine ⟨h3, ?_, ?_⟩
      · rw [takesEffect_undoStack d _ ht]
        exact canonical_push _ _ hc hu
      · rw [takesEffect_redoStack d _ ht]
        exact canonical_empty_stack
  | undo =>
    cases hs : d.undoStack with
    | nil => rw [step, undo_of_nil d hs]; exact ⟨hc, hu, hr⟩
    | cons t rest =>
      rw [step, undo_of_cons d t rest hs]
      rw [hs] at hu
      exact ⟨hu t (List.mem_cons_self t rest),
        fun s hm => hu s (List.mem_cons_of_mem t hm), canonical_push _ _ hc hr⟩
  | redo =>
    cases hs : d.redoStack with
    | nil => rw [step, redo_of_nil d hs]; exact ⟨hc, hu, hr⟩
    | cons t rest =>
      rw [step, redo_of_cons d t rest hs]
      rw [hs] at hr
      exact ⟨hr t (List.mem_cons_self t rest), canonical_push _ _ hc hu,
        fun s hm => hr s (List.mem_cons_of_mem t hm)⟩
  | clear =>
    by_cases hn : d.currentContent = []
    · rw [step, clear_of_nil d hn]
      exact ⟨hc, hu, hr⟩
    · have ht : takesEffect Op.clear d = true := by
        simp [takesEffect, isEmpty_eq_false_of_ne_nil _ hn]
      refine ⟨?_, ?_, ?_⟩
      · simp only [step, clear, isEmpty_eq_false_of_ne_nil _ hn, Bool.false_eq_true, if_false]
        exact canonical_nil
      · rw [takesEffect_undoStack d _ ht]
        exact canonical_push _ _ hc hu
      · rw [takesEffect_redoStack d _ ht]
        exact canonical_empty_stack
  | loadFromFile file =>
    cases file with
    | none => exact ⟨hc, hu, hr⟩
    | some bytes =>
      refine ⟨canonical_load bytes, canonical_push _ _ hc hu, ?_⟩
      simp only [step, loadFromFile, popAll_eq_nil]
      exact canonical_empty_stack

theorem run_canonicalState (ops : List Op) :
    ∀ d : VersionedDocument, canonicalState d → canonicalState (run ops d) := by
  induction ops with
  | nil => intro d h; exact h
  | cons op ops ih => intro d h; exact ih _ (step_canonicalState op d h)

/-- Claim C7.  In every state reached from the freshly constructed document
by a finite sequence of insert (any text), `deleteLastLine`, `clear`, undo,
redo and load (any bytes, opened or not) operations, the content is empty or
ends in the line terminator, and so does every snapshot on the undo stack and
on the redo stack. -/
theorem canonical_form_invariant (ops : List Op) :
    ((run ops fresh).currentContent = [] ∨
      (run ops fresh).currentContent.getLast? = some newline) ∧
    (∀ s ∈ (run ops fresh).undoStack, s = [] ∨ s.getLast? = some newline) ∧
    (∀ s ∈ (run ops fresh).redoStack, s = [] ∨ s.getLast? = some newline) :=
  run_canonicalState ops fresh ⟨canonical_nil, canonical_empty_stack, canonical_empty_stack⟩

/-! ## The line removed by `deleteLastLine` -/

theorem canonical_prefix_unique (p l r rest : List Char) (h : p ++ l = r ++ rest)
    (hl : newline ∉ l) (hrest : newline ∉ rest) (hp : canonical p) (hr : canonical r) :
    r = p := by
  have key : ∀ (a b x y : List Char), a ++ x = b ++ y → newline ∉ x → canonical b →
      (∃ m, b = a ++ m ∧ x = m ++ y) → b = a := by
    intro a b x y _ hx hb hm
    obtain ⟨m, h1, h2⟩ := hm
    cases m with
    | nil => simpa using h1
    | cons c cs =>
      exfalso
      rcases hb with hb | hb
      · rw [hb] at h1
        cases a <;> simp at h1
      · rw [h1, List.getLast?_append_of_ne_nil a (List.cons_ne_nil c cs)] at hb
        have hmem := List.mem_of_getLast?_eq_some hb
        exact hx (by rw [h2]; exact List.mem_append_left _ hmem)
  rcases List.append_eq_append_iff.mp h with hm | hm
  · exact key p r l rest h hl hr hm
  · exact (key r p rest l h.symm hrest hp hm).symm

/-- Claim C8.  For every non-empty content `c`, writing `c'` for `c` with one
trailing terminator removed if `c` ends in one (and `c' = c` otherwise), the
content after `deleteLastLine` is the prefix of `c'` up to and including the
last terminator of `c'`, or empty if `c'` has none: it is a prefix of `c'`
whose remainder holds no terminator and it is empty or ends in a terminator.
In particular from `p ++ l ++ "\n"`, with no terminator in `l` and `p` empty
or terminator-ended, the new content is `p`; "a\nb\nc\n" becomes "a\nb\n". -/
theorem deleteLastLine_removes_final_line (d : VersionedDocument)
    (h : d.currentContent ≠ []) :
    (∀ c', (d.currentContent = c' ++ [newline] ∨
          (d.currentContent.getLast? ≠ some newline ∧ c' = d.currentContent)) →
      ∃ rest, c' = (deleteLastLine d).1.currentContent ++ rest ∧ newline ∉ rest ∧
        ((deleteLastLine d).1.currentContent = [] ∨
          (deleteLastLine d).1.currentContent.getLast? = some newline)) ∧
    (∀ p l, d.currentContent = p ++ l ++ [newline] → newline ∉ l →
      (p = [] ∨ p.getLast? = some newline) → (deleteLastLine d).1.currentContent = p) ∧
    (deleteLastLine (VersionedDocument.mk "a\nb\nc\n".toList [] [])).1.currentContent
      = "a\nb\n".toList := by
  obtain ⟨rest, h1, h2, h3⟩ := deleteLastLine_content d h
  have part1 : ∀ c', (d.currentContent = c' ++ [newline] ∨
        (d.currentContent.getLast? ≠ some newline ∧ c' = d.currentContent)) →
      c' = (deleteLastLine d).1.currentContent ++ rest := by
    intro c' hc
    rcases hc with hc | ⟨hc1, hc2⟩
    · have hb : backIsNewline d.currentContent = true := by
        rw [backIsNewline_iff, hc]; exact List.getLast?_concat c'
      rw [hb, if_pos rfl, hc] at h1
      rw [← h1]; simp [pop_back]
    · have hb : ¬ backIsNewline d.currentContent = true := by
        rw [backIsNewline_iff]; exact hc1
      rw [if_neg hb] at h1
      rw [hc2]; exact h1
  refine ⟨fun c' hc => ⟨rest, part1 c' hc, h2, h3⟩, ?_, by decide⟩
  intro p l hpl hl hp
  have e := part1 (p ++ l) (Or.inl hpl)
  exact canonical_prefix_unique p l _ rest e hl h2 hp h3

theorem deleteLastLine_removes_final_line_witness :
    (∃ rest, "x\ny\n\nz".toList
        = (deleteLastLine (VersionedDocument.mk "x\ny\n\nz\n".toList [] [])).1.currentContent
          ++ rest ∧ newline ∉ rest ∧
        ((deleteLastLine (VersionedDocument.mk "x\ny\n\nz\n".toList [] [])).1.currentContent = [] ∨
          (deleteLastLine
            (VersionedDocument.mk "x\ny\n\nz\n".toList [] [])).1.currentContent.getLast?
            = some newline)) ∧
    (deleteLastLine (VersionedDocument.mk "x\ny\n\nz\n".toList [] [])).1.currentContent
      = "x\ny\n\n".toList :=
  have h := deleteLastLine_removes_final_line
    (VersionedDocument.mk "x\ny\n\nz\n".toList [] []) (by decide)
  ⟨h.1 "x\ny\n\nz".toList (Or.inl (by decide)),
    h.2.1 "x\ny\n\n".toList "z".toList (by decide) (by decide) (Or.inr (by decide))⟩

/-! ## Counting lines -/

theorem toInt32_of_small (x : Int) (h0 : 0 ≤ x) (h1 : x < 2147483648) : toInt32 x = x := by
  unfold toInt32
  omega

theorem countLines_eq_lineTotal (c : List Char) (h : c.count newline < 2147483647) :
    countLines c = (lineTotal c : Int) := by
  unfold countLines lineTotal
  cases c with
  | nil => simp [backIsNotNewline]
  | cons x xs =>
    simp only [List.isEmpty_cons, Bool.false_eq_true, if_false]
    by_cases hb : backIsNotNewline (x :: xs) = true
    · simp only [hb, if_true]
      rw [toInt32_of_small (List.count newline (x :: xs) : Int) (by omega) (by omega),
        toInt32_of_small _ (by omega) (by omega)]
      push_cast
      rfl
    · simp only [hb, Bool.false_eq_true, if_false]
      rw [toInt32_of_small _ (by omega) (by omega)]
      simp

theorem lineTotal_eq_zero_iff (c : List Char) : lineTotal c = 0 ↔ c = [] := by
  constructor
  · intro h
    unfold lineTotal at h
    by_contra hne
    by_cases hb : backIsNotNewline c = true
    · simp [hb] at h
    · have hl : c.getLast? = some newline := by
        by_contra hl
        exact hb ((backIsNotNewline_iff c).mpr ⟨hne, hl⟩)
      have hmem : newline ∈ c := List.mem_of_getLast?_eq_some hl
      have hpos : 0 < c.count newline := List.count_pos_iff.mpr hmem
      omega
  · intro h
    rw [h]
    rfl

/-- Claim C10.  For a content `c` whose terminators the `int` counter can
count without overflow, `countLines` gives 0 when `c` is empty, the number of terminators in `c` when
`c` ends in a terminator, and that number plus 1 when `c` is non-empty and
does not end in a terminator; so the count is 0 exactly when `c` is empty.
The contents "a\nb\nc\n", "a\nb\nc" and "" give 3, 3 and 0. -/
theorem countLines_definition (c : List Char) (h : c.count newline < 2147483647) :
    (c = [] → countLines c = 0) ∧
    (c.getLast? = some newline → countLines c = (c.count newline : Int)) ∧
    (c ≠ [] → c.getLast? ≠ some newline → countLines c = (c.count newline : Int) + 1) ∧
    (countLines c = 0 ↔ c = []) ∧
    countLines "a\nb\nc\n".toList = 3 ∧ countLines "a\nb\nc".toList = 3 ∧
    countLines "".toList = 0 := by
  have he := countLines_eq_lineTotal c h
  refine ⟨?_, ?_, ?_, ?_, by decide, by decide, by decide⟩
  · intro hc
    rw [hc]
    rfl
  · intro hl
    have hb : ¬ backIsNotNewline c = true := by
      intro hb
      exact ((backIsNotNewline_iff c).mp hb).2 hl
    rw [he]
    simp [lineTotal, hb]
  · intro hne hl
    have hb : backIsNotNewline c = true := (backIsNotNewline_iff c).mpr ⟨hne, hl⟩
    rw [he]
    simp [lineTotal, hb]
  · rw [he]
    constructor
    · intro h0
      exact (lineTotal_eq_zero_iff c).mp (by exact_mod_cast h0)
    · intro hc
      rw [(lineTotal_eq_zero_iff c).mpr hc]
      rfl

theorem countLines_definition_witness :
    countLines "one\n\ntwo".toList = ("one\n\ntwo".toList.count newline : Int) + 1 ∧
    (countLines "one\n\ntwo".toList = 0 ↔ "one\n\ntwo".toList = []) :=
  have h := countLines_definition "one\n\ntwo".toList (by decide)
  ⟨h.2.2.1 (by decide) (by decide), h.2.2.2.1⟩

/-! ## Deleting the last line until the document is empty -/

theorem deleteLastLineTimes_succ (n : Nat) :
    ∀ d : VersionedDocument,
      deleteLastLineTimes (n + 1) d = (deleteLastLine (deleteLastLineTimes n d)).1 := by
  induction n with
  | zero => intro d; rfl
  | succ n ih =>
    intro d
    show deleteLastLineTimes (n + 1) (deleteLastLine d).1 = _
    rw [ih]
    rfl

theorem backIsNotNewline_of_canonical (r : List Char) (h : canonical r) :
    backIsNotNewline r = false := by
  cases hb : backIsNotNewline r with
  | false => rfl
  | true =>
    obtain ⟨h1, h2⟩ := (backIsNotNewline_iff r).mp hb
    rcases h with h | h
    · exact absurd h h1
    · exact absurd h h2

theorem deleteLastLine_lineTotal (d : VersionedDocument) (h : d.currentContent ≠ []) :
    lineTotal (deleteLastLine d).1.currentContent + 1 = lineTotal d.currentContent ∧
    (deleteLastLine d).1.currentContent.count newline ≤ d.currentContent.count newline := by
  obtain ⟨rest, h1, h2, h3⟩ := deleteLastLine_content d h
  have hr : lineTotal (deleteLastLine d).1.currentContent
      = (deleteLastLine d).1.currentContent.count newline := by
    simp [lineTotal, backIsNotNewline_of_canonical _ h3]
  have hrest : rest.count newline = 0 := List.count_eq_zero.mpr h2
  by_cases hb : backIsNewline d.currentContent = true
  · rw [if_pos hb] at h1
    have hl := (backIsNewline_iff _).mp hb
    have hc : d.currentContent = pop_back d.currentContent ++ [newline] :=
      (List.dropLast_append_getLast? newline (by simp [hl])).symm
    have hnb : backIsNotNewline d.currentContent = false := by
      cases hn : backIsNotNewline d.currentContent with
      | false => rfl
      | true => exact absurd hl ((backIsNotNewline_iff _).mp hn).2
    have hcount : d.currentContent.count newline
        = (deleteLastLine d).1.currentContent.count newline + 1 := by
      conv_lhs => rw [hc, h1]
      simp [List.count_append, hrest]
    refine ⟨?_, by omega⟩
    rw [hr]
    simp only [lineTotal, hnb, Bool.false_eq_true, if_false]
    omega
  · rw [if_neg hb] at h1
    have hl : d.currentContent.getLast? ≠ some newline := fun hl =>
      hb ((backIsNewline_iff _).mpr hl)
    have hnb : backIsNotNewline d.currentContent = true :=
      (backIsNotNewline_iff _).mpr ⟨h, hl⟩
    have hcount : d.currentContent.count newline
        = (deleteLastLine d).1.currentContent.count newline := by
      conv_lhs => rw [h1]
      simp [List.count_append, hrest]
    refine ⟨?_, by omega⟩
    rw [hr]
    simp only [lineTotal, hnb, if_true]
    omega

theorem deleteLastLineTimes_lineTotal (k : Nat) :
    ∀ d : VersionedDocument, k ≤ lineTotal d.currentContent →
      lineTotal (deleteLastLineTimes k d).currentContent + k = lineTotal d.currentContent ∧
      (deleteLastLineTimes k d).currentContent.count newline
        ≤ d.currentContent.count newline := by
  induction k with
  | zero => intro d _; exact ⟨rfl, Nat.le_refl _⟩
  | succ k ih =>
    intro d hk
    have hne : d.currentContent ≠ [] := by
      intro h0
      rw [(lineTotal_eq_zero_iff _).mpr h0] at hk
      omega
    obtain ⟨h1, h2⟩ := deleteLastLine_lineTotal d hne
    obtain ⟨h3, h4⟩ := ih (deleteLastLine d).1 (by omega)
    refine ⟨?_, ?_⟩
    · show lineTotal (deleteLastLineTimes k (deleteLastLine d).1).currentContent + (k + 1) = _
      omega
    · show (deleteLastLineTimes k (deleteLastLine d).1).currentContent.count newline ≤ _
      omega

/-- Claim C9, amended.  For a content `c` with fewer than `2^31 - 1`
terminators (so that the `int` counter of `countLines` cannot overflow) and
with `countLines c = n`, the first `n` consecutive
`deleteLastLine` calls all succeed, each lowers `countLines` by exactly 1,
the content is empty after the `n`-th call and not before, and the call
after that reports `EmptyDocument`.  From "a\nb\nc\n" the calls give
"a\nb\n", "a\n", "" and the fourth reports `EmptyDocument`. -/
theorem repeated_deleteLastLine_empties (d : VersionedDocument)
    (h : d.currentContent.count newline < 2147483647) :
    (∀ k, k < (countLines d.currentContent).toNat →
      (deleteLastLineTimes k d).currentContent ≠ [] ∧
      (deleteLastLine (deleteLastLineTimes k d)).2 = Message.lastLineDeleted ∧
      countLines (deleteLastLineTimes (k + 1) d).currentContent
        = countLines (deleteLastLineTimes k d).currentContent - 1) ∧
    (deleteLastLineTimes (countLines d.currentContent).toNat d).currentContent = [] ∧
    (deleteLastLine (deleteLastLineTimes (countLines d.currentContent).toNat d)).2
      = Message.documentAlreadyEmpty ∧
    (deleteLastLineTimes 1 (VersionedDocument.mk "a\nb\nc\n".toList [] [])).currentContent
      = "a\nb\n".toList ∧
    (deleteLastLineTimes 2 (VersionedDocument.mk "a\nb\nc\n".toList [] [])).currentContent
      = "a\n".toList ∧
    (deleteLastLineTimes 3 (VersionedDocument.mk "a\nb\nc\n".toList [] [])).currentContent
      = [] ∧
    (deleteLastLine
      (deleteLastLineTimes 3 (VersionedDocument.mk "a\nb\nc\n".toList [] []))).2
      = Message.documentAlreadyEmpty := by
  have hn : (countLines d.currentContent).toNat = lineTotal d.currentContent := by
    rw [countLines_eq_lineTotal _ h]
    exact Int.toNat_ofNat _
  rw [hn]
  have hfull := deleteLastLineTimes_lineTotal (lineTotal d.currentContent) d (Nat.le_refl _)
  have hempty : (deleteLastLineTimes (lineTotal d.currentContent) d).currentContent = [] :=
    (lineTotal_eq_zero_iff _).mp (by omega)
  refine ⟨?_, hempty, ?_, by decide, by decide, by decide, by decide⟩
  · intro k hk
    obtain ⟨h1, h2⟩ := deleteLastLineTimes_lineTotal k d (by omega)
    have hne : (deleteLastLineTimes k d).currentContent ≠ [] := by
      intro h0
      rw [(lineTotal_eq_zero_iff _).mpr h0] at h1
      omega
    obtain ⟨h3, h4⟩ := deleteLastLine_lineTotal (deleteLastLineTimes k d) hne
    refine ⟨hne, deleteLastLine_message_of_ne_nil _ hne, ?_⟩
    rw [deleteLastLineTimes_succ, countLines_eq_lineTotal _ (by omega),
      countLines_eq_lineTotal _ (by omega)]
    omega
  · rw [deleteLastLine_of_nil _ hempty]

theorem repeated_deleteLastLine_empties_witness :
    ((deleteLastLineTimes 1 (VersionedDocument.mk "p\n\nq".toList [[]] [])).currentContent ≠ [] ∧
      (deleteLastLine
        (deleteLastLineTimes 1 (VersionedDocument.mk "p\n\nq".toList [[]] []))).2
        = Message.lastLineDeleted ∧
      countLines (deleteLastLineTimes (1 + 1)
          (VersionedDocument.mk "p\n\nq".toList [[]] [])).currentContent
        = countLines (deleteLastLineTimes 1
          (VersionedDocument.mk "p\n\nq".toList [[]] [])).currentContent - 1) ∧
    (deleteLastLineTimes (countLines "p\n\nq".toList).toNat
      (VersionedDocument.mk "p\n\nq".toList [[]] [])).currentContent = [] ∧
    (deleteLastLine (deleteLastLineTimes (countLines "p\n\nq".toList).toNat
      (VersionedDocument.mk "p\n\nq".toList [[]] []))).2 = Message.documentAlreadyEmpty :=
  have h := repeated_deleteLastLine_empties
    (VersionedDocument.mk "p\n\nq".toList [[]] []) (by decide)
  ⟨h.1 1 (by decide), h.2.1, h.2.2.1⟩

/-! ## Loading a file -/

theorem loadFromFile_content (b : List Char) (d : VersionedDocument) :
    (loadFromFile (some b) d).1.currentContent
      = if backIsNotNewline b then b ++ [newline] else b := rfl

/-- Counterexample to claim C11 as stated.  The empty byte string is not
terminator-ended, yet a successful load of it leaves the content empty and
not equal to the empty string followed by one terminator. -/
theorem load_empty_bytes_stays_empty :
    ([] : List Char).getLast? ≠ some newline ∧
    (loadFromFile (some []) (VersionedDocument.mk "x\n".toList [] [])).1.currentContent = [] ∧
    (loadFromFile (some []) (VersionedDocument.mk "x\n".toList [] [])).1.currentContent
      ≠ [] ++ [newline] := by
  decide

/-- Claim C11, amended.  For every byte string `b` delivered by a successful
load and every prior state, the new content does not depend on the prior
state; it is `b` itself when `b` is empty or already ends in the line
terminator, and `b` followed by exactly one terminator when `b` is non-empty
and does not end in a terminator. -/
theorem load_normalises_by_replacement (b : List Char) (d d' : VersionedDocument) :
    (loadFromFile (some b) d).1.currentContent
      = (loadFromFile (some b) d').1.currentContent ∧
    ((b = [] ∨ b.getLast? = some newline) →
      (loadFromFile (some b) d).1.currentContent = b) ∧
    (b ≠ [] → b.getLast? ≠ some newline →
      (loadFromFile (some b) d).1.currentContent = b ++ [newline]) := by
  refine ⟨rfl, ?_, ?_⟩
  · intro h
    have hb : backIsNotNewline b = false := backIsNotNewline_of_canonical b h
    rw [loadFromFile_content, hb]
    rfl
  · intro h1 h2
    have hb : backIsNotNewline b = true := (backIsNotNewline_iff b).mpr ⟨h1, h2⟩
    rw [loadFromFile_content, hb]
    rfl

theorem load_normalises_by_replacement_witness :
    (loadFromFile (some "x\ny\n".toList)
        (VersionedDocument.mk "old\n".toList [[]] ["z\n".toList])).1.currentContent
      = "x\ny\n".toList ∧
    (loadFromFile (some "x\ny".toList)
        (VersionedDocument.mk "old\n".toList [[]] ["z\n".toList])).1.currentContent
      = "x\ny".toList ++ [newline] :=
  ⟨(load_normalises_by_replacement "x\ny\n".toList
      (VersionedDocument.mk "old\n".toList [[]] ["z\n".toList]) fresh).2.1
      (Or.inr (by decide)),
    (load_normalises_by_replacement "x\ny".toList
      (VersionedDocument.mk "old\n".toList [[]] ["z\n".toList]) fresh).2.2
      (by decide) (by decide)⟩

/-- Claim C12, amended.  A load whose file cannot be opened prints `File not
found` and leaves the content, the undo stack and the redo stack exactly as
they were; a load whose file was opened reports success and sets a content
made from the bytes obtained alone, the same whatever state (whatever earlier
edits) it is applied to. -/
theorem failed_load_is_atomic (d : VersionedDocument) :
    loadFromFile none d = (d, Message.fileNotFound) ∧
    ∀ (bytes : List Char) (d' : VersionedDocument),
      (loadFromFile (some bytes) d).2 = Message.documentLoaded ∧
      (loadFromFile (some bytes) d).1.currentContent
        = (if backIsNotNewline bytes then bytes ++ [newline] else bytes) ∧
      (loadFromFile (some bytes) d).1.currentContent
        = (loadFromFile (some bytes) d').1.currentContent :=
  ⟨rfl, fun _ _ => ⟨rfl, rfl, rfl⟩⟩

/-! ## Inserting a line -/

/-- Claim C13.  For every prior content `c` and every text `t`, the content
after `insertText t` is exactly `c ++ t ++ "\n"`: the prior content is kept
as a prefix and one terminator follows `t`. -/
theorem insert_appends_terminated_line (t : List Char) (d : VersionedDocument) :
    (insertText t d).1.currentContent = d.currentContent ++ t ++ [newline] ∧
    (insertText t d).1.currentContent.take d.currentContent.length = d.currentContent ∧
    (insertText t d).1.currentContent.drop d.currentContent.length = t ++ [newline] := by
  have h : (insertText t d).1.currentContent = d.currentContent ++ (t ++ [newline]) := rfl
  refine ⟨?_, ?_, ?_⟩
  · rw [h, List.append_assoc]
  · rw [h, List.take_left]
  · rw [h, List.drop_left]

/-! ## The text shown and the text saved -/

theorem strip_concat (s : List Char) :
    (if backIsNewline (s ++ [newline]) then pop_back (s ++ [newline]) else s ++ [newline])
      = s := by
  have hb : backIsNewline (s ++ [newline]) = true :=
    (backIsNewline_iff _).mpr (List.getLast?_concat s)
  rw [if_pos hb]
  simp [pop_back]

theorem strip_of_not_terminated (c : List Char) (h : c.getLast? ≠ some newline) :
    (if backIsNewline c then pop_back c else c) = c := by
  have hb : ¬ backIsNewline c = true := fun hb => h ((backIsNewline_iff c).mp hb)
  rw [if_neg hb]

theorem display_of_ne_nil (d : VersionedDocument) (h : d.currentContent ≠ []) :
    (display d).2.1
      = if backIsNewline d.currentContent then pop_back d.currentContent
        else d.currentContent := by
  simp [display, isEmpty_eq_false_of_ne_nil _ h]

theorem saveToFile_written (d : VersionedDocument) :
    (saveToFile true d).2.1
      = some (if backIsNewline d.currentContent then pop_back d.currentContent
        else d.currentContent) := rfl

/-- Counterexample to claim C14 as stated.  For the empty content, which does
not end in a terminator, `display` does not show the content unchanged but
the placeholder `[Empty Document]`, while `saveToFile` writes the empty text:
the two do not derive the same text. -/
theorem display_empty_shows_placeholder :
    fresh.currentContent.getLast? ≠ some newline ∧
    (display fresh).2.1 = "[Empty Document]".toList ∧
    (display fresh).2.1 ≠ fresh.currentContent ∧
    (saveToFile true fresh).2.1 = some [] ∧
    some (display fresh).2.1 ≠ (saveToFile true fresh).2.1 := by
  decide

/-- Claim C14, amended.  For every non-empty content `c`, the text `display`
shows and the text `saveToFile` writes (when the file can be created) are the
same: `c` with exactly one trailing terminator removed when `c` ends in one
(so `s ++ "\n"` gives `s`, whatever `s` ends in) and `c` unchanged otherwise.
For the empty content `saveToFile` writes the empty text and `display` shows
the placeholder `[Empty Document]`.  Neither function changes the content or
either stack. -/
theorem presentation_form (d : VersionedDocument) :
    (∀ s, d.currentContent = s ++ [newline] →
      (display d).2.1 = s ∧ (saveToFile true d).2.1 = some s) ∧
    (d.currentContent ≠ [] → d.currentContent.getLast? ≠ some newline →
      (display d).2.1 = d.currentContent) ∧
    (d.currentContent.getLast? ≠ some newline →
      (saveToFile true d).2.1 = some d.currentContent) ∧
    (d.currentContent ≠ [] → some (display d).2.1 = (saveToFile true d).2.1) ∧
    (d.currentContent = [] →
      (display d).2.1 = "[Empty Document]".toList ∧ (saveToFile true d).2.1 = some []) ∧
    (display d).1 = d ∧ (∀ isOpen, (saveToFile isOpen d).1 = d) := by
  refine ⟨?_, ?_, ?_, ?_, ?_, rfl, ?_⟩
  · intro s hs
    have hne : d.currentContent ≠ [] := by rw [hs]; simp
    rw [display_of_ne_nil d hne, saveToFile_written, hs, strip_concat]
    exact ⟨rfl, rfl⟩
  · intro hne hl
    rw [display_of_ne_nil d hne, strip_of_not_terminated _ hl]
  · intro hl
    rw [saveToFile_written, strip_of_not_terminated _ hl]
  · intro hne
    rw [display_of_ne_nil d hne, saveToFile_written]
  · intro h0
    refine ⟨?_, ?_⟩
    · simp [display, h0]
    · rw [saveToFile_written, h0]
      rfl
  · intro isOpen
    cases isOpen <;> rfl

theorem presentation_form_witness :
    ((display (VersionedDocument.mk "a\n\n".toList [[]] ["z\n".toList])).2.1 = "a\n".toList ∧
      (saveToFile true (VersionedDocument.mk "a\n\n".toList [[]] ["z\n".toList])).2.1
        = some "a\n".toList) ∧
    some (display (VersionedDocument.mk "a\n\n".toList [[]] ["z\n".toList])).2.1
      = (saveToFile true (VersionedDocument.mk "a\n\n".toList [[]] ["z\n".toList])).2.1 :=
  have h := presentation_form (VersionedDocument.mk "a\n\n".toList [[]] ["z\n".toList])
  ⟨h.1 "a\n".toList (by decide), h.2.2.2.1 (by decide)⟩

/-! ## The empty-text guard -/

/-- Counterexample to claim C15 as stated.  The function `insertText` called
with the empty string is not a no-op: it pushes a snapshot, empties the redo
stack and appends a blank line. -/
theorem insertText_empty_changes_state :
    (insertText [] (VersionedDocument.mk "a\n".toList [[]] ["a\nb\n".toList])).1
      = VersionedDocument.mk "a\n\n".toList ["a\n".toList, []] [] ∧
    (insertText [] (VersionedDocument.mk "a\n".toList [[]] ["a\nb\n".toList])).1
      ≠ VersionedDocument.mk "a\n".toList [[]] ["a\nb\n".toList] := by
  decide

/-- Claim C15, amended.  The empty-text guard is in the caller: for every
state, case 1 of `main` given the empty string prints `Cannot insert empty
text.` and leaves the content and both stacks unchanged, and given a
non-empty text it calls `insertText`.  The function `insertText` itself has
no guard: called with the empty string it pushes a snapshot, empties the redo
stack and appends one terminator. -/
theorem empty_text_guard_in_caller (d : VersionedDocument) :
    mainCase1 [] d = (d, Message.cannotInsertEmptyText) ∧
    (∀ text, text ≠ [] → mainCase1 text d = insertText text d) ∧
    (insertText [] d).1
      = VersionedDocument.mk (d.currentContent ++ [newline])
          (d.currentContent :: d.undoStack) [] := by
  refine ⟨rfl, ?_, ?_⟩
  · intro text ht
    simp [mainCase1, isEmpty_eq_false_of_ne_nil _ ht]
  · simp [insertText, popAll_eq_nil]

theorem empty_text_guard_in_caller_witness :
    mainCase1 "x".toList (VersionedDocument.mk "a\n".toList [[]] ["a\nb\n".toList])
      = insertText "x".toList (VersionedDocument.mk "a\n".toList [[]] ["a\nb\n".toList]) :=
  (empty_text_guard_in_caller
    (VersionedDocument.mk "a\n".toList [[]] ["a\nb\n".toList])).2.1 "x".toList (by decide)

/-! ## Undo and redo as moves along one timeline -/

theorem redo_undo_of_cons (d : VersionedDocument) (t : List Char) (rest : List (List Char))
    (h : d.undoStack = t :: rest) : (redo (undo d).1).1 = d := by
  obtain ⟨c, u, r⟩ := d
  simp only at h
  subst h
  rfl

theorem undo_redo_of_cons (d : VersionedDocument) (t : List Char) (rest : List (List Char))
    (h : d.redoStack = t :: rest) : (undo (redo d).1).1 = d := by
  obtain ⟨c, u, r⟩ := d
  simp only at h
  subst h
  rfl

/-- Claim C16.  In a state with a non-empty undo stack, undo followed by redo
gives back the same content, undo stack and redo stack; in a state with a
non-empty redo stack, redo followed by undo gives back the same state. -/
theorem undo_redo_mutually_inverse (d : VersionedDocument) :
    (d.undoStack ≠ [] → (redo (undo d).1).1 = d) ∧
    (d.redoStack ≠ [] → (undo (redo d).1).1 = d) := by
  constructor
  · intro h
    cases hs : d.undoStack with
    | nil => exact absurd hs h
    | cons t rest => exact redo_undo_of_cons d t rest hs
  · intro h
    cases hs : d.redoStack with
    | nil => exact absurd hs h
    | cons t rest => exact undo_redo_of_cons d t rest hs

theorem undo_redo_mutually_inverse_witness :
    (redo (undo (VersionedDocument.mk "a\nb\n".toList ["a\n".toList, []]
        ["a\nb\nc\n".toList])).1).1
      = VersionedDocument.mk "a\nb\n".toList ["a\n".toList, []] ["a\nb\nc\n".toList] ∧
    (undo (redo (VersionedDocument.mk "a\nb\n".toList ["a\n".toList, []]
        ["a\nb\nc\n".toList])).1).1
      = VersionedDocument.mk "a\nb\n".toList ["a\n".toList, []] ["a\nb\nc\n".toList] :=
  have h := undo_redo_mutually_inverse
    (VersionedDocument.mk "a\nb\n".toList ["a\n".toList, []] ["a\nb\nc\n".toList])
  ⟨h.1 (by decide), h.2 (by decide)⟩

theorem timeline_undo (d : VersionedDocument) : timeline (undo d).1 = timeline d := by
  cases hs : d.undoStack with
  | nil => rw [undo_of_nil d hs]
  | cons t rest =>
    rw [undo_of_cons d t rest hs]
    simp [timeline, hs]

theorem timeline_redo (d : VersionedDocument) : timeline (redo d).1 = timeline d := by
  cases hs : d.redoStack with
  | nil => rw [redo_of_nil d hs]
  | cons t rest =>
    rw [redo_of_cons d t rest hs]
    simp [timeline, hs]

theorem timeline_length (d : VersionedDocument) :
    (timeline d).length = d.undoStack.length + d.redoStack.length + 1 := by
  simp [timeline]
  omega

/-- Claim C17.  With the timeline of a state defined as the undo stack from
oldest to newest, then the current content, then the redo stack from newest to
oldest, undo and redo leave the timeline unchanged whether they succeed or
report `NoHistory`, hence leave the sum of the two stack sizes unchanged.  A
successful undo moves the current content one place towards the start of the
timeline, a successful redo one place towards its end, and a rejected call
does not move it. -/
theorem timeline_conserved (d : VersionedDocument) :
    timeline (undo d).1 = timeline d ∧
    timeline (redo d).1 = timeline d ∧
    (undo d).1.undoStack.length + (undo d).1.redoStack.length
      = d.undoStack.length + d.redoStack.length ∧
    (redo d).1.undoStack.length + (redo d).1.redoStack.length
      = d.undoStack.length + d.redoStack.length ∧
    (timeline d).get? d.undoStack.length = some d.currentContent ∧
    (d.undoStack ≠ [] → (undo d).1.undoStack.length + 1 = d.undoStack.length) ∧
    (d.redoStack ≠ [] → (redo d).1.undoStack.length = d.undoStack.length + 1) ∧
    (d.undoStack = [] → (undo d).1.undoStack.length = d.undoStack.length) ∧
    (d.redoStack = [] → (redo d).1.undoStack.length = d.undoStack.length) := by
  have hu := timeline_undo d
  have hr := timeline_redo d
  have lu := timeline_length (undo d).1
  have lr := timeline_length (redo d).1
  have l0 := timeline_length d
  rw [hu] at lu
  rw [hr] at lr
  refine ⟨hu, hr, by omega, by omega, ?_, ?_, ?_, ?_, ?_⟩
  · have hlen : d.undoStack.length = d.undoStack.reverse.length := by simp
    simp only [timeline, List.append_assoc, List.get?_eq_getElem?]
    rw [hlen, List.getElem?_append_right (Nat.le_refl _)]
    simp
  · intro h
    cases hs : d.undoStack with
    | nil => exact absurd hs h
    | cons t rest => rw [undo_of_cons d t rest hs]; rfl
  · intro h
    cases hs : d.redoStack with
    | nil => exact absurd hs h
    | cons t rest => rw [redo_of_cons d t rest hs]; rfl
  · intro h
    rw [undo_of_nil d h]
  · intro h
    rw [redo_of_nil d h]

theorem timeline_conserved_witness :
    (undo (VersionedDocument.mk "b\n".toList ["a\n".toList, []]
        ["b\nc\n".toList])).1.undoStack.length + 1 = 2 ∧
    (redo (VersionedDocument.mk "b\n".toList ["a\n".toList, []]
        ["b\nc\n".toList])).1.undoStack.length = 2 + 1 ∧
    (undo fresh).1.undoStack.length = 0 ∧
    (redo fresh).1.undoStack.length = 0 :=
  have h := timeline_conserved
    (VersionedDocument.mk "b\n".toList ["a\n".toList, []] ["b\nc\n".toList])
  have h0 := timeline_conserved fresh
  ⟨h.2.2.2.2.2.1 (by decide), h.2.2.2.2.2.2.1 (by decide),
    h0.2.2.2.2.2.2.2.1 rfl, h0.2.2.2.2.2.2.2.2 rfl⟩

/-! ## Line count after an insert -/

theorem lineTotal_of_canonical (c : List Char) (h : canonical c) :
    lineTotal c = c.count newline := by
  simp [lineTotal, backIsNotNewline_of_canonical c h]

/-- Claim C18, amended.  In every state reached from the freshly constructed
document by a sequence of insert, `deleteLastLine`, clear, undo, redo and
load operations, and for every text `t` such that the content after the
insert has fewer than `2^31 - 1` terminators (so that the `int` counter of
`countLines` cannot overflow), `insertText t` raises `countLines` by 1 plus
the number of terminators in `t`, so by exactly 1 when `t` holds no
terminator. -/
theorem insert_raises_line_count (ops : List Op) (t : List Char)
    (h : (insertText t (run ops fresh)).1.currentContent.count newline < 2147483647) :
    countLines (insertText t (run ops fresh)).1.currentContent
      = countLines (run ops fresh).currentContent + 1 + (t.count newline : Int) ∧
    (newline ∉ t →
      countLines (insertText t (run ops fresh)).1.currentContent
        = countLines (run ops fresh).currentContent + 1) := by
  have hcan : canonical (run ops fresh).currentContent :=
    (run_canonicalState ops fresh
      ⟨canonical_nil, canonical_empty_stack, canonical_empty_stack⟩).1
  have hafter : (insertText t (run ops fresh)).1.currentContent
      = (run ops fresh).currentContent ++ (t ++ [newline]) := rfl
  have hcount : (insertText t (run ops fresh)).1.currentContent.count newline
      = (run ops fresh).currentContent.count newline + t.count newline + 1 := by
    rw [hafter]
    simp [List.count_append]
    omega
  have h1 : countLines (insertText t (run ops fresh)).1.currentContent
      = ((insertText t (run ops fresh)).1.currentContent.count newline : Int) := by
    rw [countLines_eq_lineTotal _ h, lineTotal_of_canonical]
    rw [hafter]
    exact canonical_insert _ _
  have h2 : countLines (run ops fresh).currentContent
      = ((run ops fresh).currentContent.count newline : Int) := by
    rw [countLines_eq_lineTotal _ (by omega), lineTotal_of_canonical _ hcan]
  have main : countLines (insertText t (run ops fresh)).1.currentContent
      = countLines (run ops fresh).currentContent + 1 + (t.count newline : Int) := by
    rw [h1, h2, hcount]
    push_cast
    omega
  refine ⟨main, ?_⟩
  intro ht
  have h0 : t.count newline = 0 := List.count_eq_zero.mpr ht
  rw [main, h0]
  simp

theorem insert_raises_line_count_witness :
    countLines (insertText "x\ny".toList
        (run [Op.insertText "a".toList, Op.loadFromFile (some "p\nq".toList), Op.undo, Op.redo]
          fresh)).1.currentContent
      = countLines (run [Op.insertText "a".toList, Op.loadFromFile (some "p\nq".toList),
          Op.undo, Op.redo] fresh).currentContent + 1 + ("x\ny".toList.count newline : Int) :=
  (insert_raises_line_count
    [Op.insertText "a".toList, Op.loadFromFile (some "p\nq".toList), Op.undo, Op.redo]
    "x\ny".toList (by decide)).1

/-! ## Saving and loading back -/

/-- Claim C19.  For every content `c` that ends in a line terminator and whose
presentation form (`c` without that one terminator) is non-empty and does not
itself end in a terminator, `saveToFile` writes the presentation form, and
loading these bytes into any state sets the content back to exactly `c`, with
the same `countLines`. -/
theorem save_load_round_trip (d d' : VersionedDocument)
    (h1 : d.currentContent.getLast? = some newline)
    (h2 : pop_back d.currentContent ≠ [])
    (h3 : (pop_back d.currentContent).getLast? ≠ some newline) :
    (saveToFile true d).2.1 = some (pop_back d.currentContent) ∧
    (loadFromFile (saveToFile true d).2.1 d').1.currentContent = d.currentContent ∧
    countLines (loadFromFile (saveToFile true d).2.1 d').1.currentContent
      = countLines d.currentContent := by
  have hb : backIsNewline d.currentContent = true := (backIsNewline_iff _).mpr h1
  have hs : (saveToFile true d).2.1 = some (pop_back d.currentContent) := by
    rw [saveToFile_written, if_pos hb]
  have hn : backIsNotNewline (pop_back d.currentContent) = true :=
    (backIsNotNewline_iff _).mpr ⟨h2, h3⟩
  have hc : pop_back d.currentContent ++ [newline] = d.currentContent :=
    List.dropLast_append_getLast? newline (by simp [h1])
  have hl : (loadFromFile (saveToFile true d).2.1 d').1.currentContent = d.currentContent := by
    rw [hs, loadFromFile_content, if_pos hn, hc]
  exact ⟨hs, hl, by rw [hl]⟩

theorem save_load_round_trip_witness :
    (saveToFile true (VersionedDocument.mk "a\nb\n".toList [[]] [])).2.1
      = some (pop_back "a\nb\n".toList) ∧
    (loadFromFile (saveToFile true (VersionedDocument.mk "a\nb\n".toList [[]] [])).2.1
        (VersionedDocument.mk "zzz\n".toList [] ["q\n".toList])).1.currentContent
      = "a\nb\n".toList ∧
    countLines (loadFromFile (saveToFile true (VersionedDocument.mk "a\nb\n".toList [[]] [])).2.1
        (VersionedDocument.mk "zzz\n".toList [] ["q\n".toList])).1.currentContent
      = countLines "a\nb\n".toList :=
  save_load_round_trip (VersionedDocument.mk "a\nb\n".toList [[]] [])
    (VersionedDocument.mk "zzz\n".toList [] ["q\n".toList])
    (by decide) (by decide) (by decide)

/-! ## Where the `int` counter overflows -/

theorem replicate_newline_ne_nil (n : Nat) (h : 0 < n) :
    List.replicate n newline ≠ [] := by
  cases n with
  | zero => exact absurd h (Nat.lt_irrefl 0)
  | succ m => exact List.cons_ne_nil _ _

theorem replicate_newline_canonical (n : Nat) (h : 0 < n) :
    canonical (List.replicate n newline) := by
  right
  rw [List.getLast?_replicate, if_neg (by omega)]

theorem countLines_of_canonical (c : List Char) (hne : c ≠ []) (hc : canonical c) :
    countLines c = toInt32 (c.count newline) := by
  unfold countLines
  simp only [isEmpty_eq_false_of_ne_nil c hne, backIsNotNewline_of_canonical c hc,
    Bool.false_eq_true, if_false]

theorem countLines_replicate_newline (n : Nat) (h : 0 < n) :
    countLines (List.replicate n newline) = toInt32 (n : Int) := by
  rw [countLines_of_canonical _ (replicate_newline_ne_nil n h)
    (replicate_newline_canonical n h), List.count_replicate_self]

theorem toInt32_two_pow_32 : toInt32 ((4294967296 : Nat) : Int) = 0 := by
  unfold toInt32
  norm_num

theorem toInt32_two_pow_31 : toInt32 ((2147483648 : Nat) : Int) = -2147483648 := by
  unfold toInt32
  norm_num

theorem toInt32_int_max : toInt32 ((2147483647 : Nat) : Int) = 2147483647 := by
  unfold toInt32
  norm_num

/-- Counterexample to claim C9 as stated.  For the content made of `2^32`
terminators the `int` counter wraps and `countLines` is 0, yet the content is
not empty after 0 calls and the next `deleteLastLine` call, the first one,
succeeds instead of reporting `EmptyDocument`.  For `2^31` terminators
`countLines` is `-2^31`, not a number of calls at all. -/
theorem countLines_wraps_on_huge_content :
    countLines (List.replicate 4294967296 newline) = 0 ∧
    (deleteLastLineTimes (countLines (List.replicate 4294967296 newline)).toNat
      (VersionedDocument.mk (List.replicate 4294967296 newline) [] [])).currentContent ≠ [] ∧
    (deleteLastLine
      (deleteLastLineTimes (countLines (List.replicate 4294967296 newline)).toNat
        (VersionedDocument.mk (List.replicate 4294967296 newline) [] []))).2
      = Message.lastLineDeleted ∧
    countLines (List.replicate 2147483648 newline) = -2147483648 := by
  have h0 : countLines (List.replicate 4294967296 newline) = 0 := by
    rw [countLines_replicate_newline 4294967296 (by omega)]
    exact toInt32_two_pow_32
  have hne : List.replicate 4294967296 newline ≠ [] :=
    replicate_newline_ne_nil 4294967296 (by omega)
  have h1 : countLines (List.replicate 2147483648 newline) = -2147483648 := by
    rw [countLines_replicate_newline 2147483648 (by omega)]
    exact toInt32_two_pow_31
  refine ⟨h0, ?_, ?_, h1⟩
  · rw [h0]
    exact hne
  · rw [h0]
    exact deleteLastLine_message_of_ne_nil
      (VersionedDocument.mk (List.replicate 4294967296 newline) [] []) hne

theorem run_single_load (b : List Char) (hb : canonical b) :
    (run [Op.loadFromFile (some b)] fresh).currentContent = b := by
  have h : (run [Op.loadFromFile (some b)] fresh).currentContent
      = (loadFromFile (some b) fresh).1.currentContent := rfl
  rw [h, loadFromFile_content, backIsNotNewline_of_canonical b hb]
  rfl

theorem insertText_content (t : List Char) (d : VersionedDocument) :
    (insertText t d).1.currentContent = d.currentContent ++ (t ++ [newline]) := rfl

theorem countLines_replicate_insert (n : Nat) (t : List Char) (ht : newline ∉ t) :
    countLines (List.replicate n newline ++ (t ++ [newline])) = toInt32 ((n + 1 : Nat) : Int) := by
  have hne : List.replicate n newline ++ (t ++ [newline]) ≠ [] := by simp
  rw [countLines_of_canonical _ hne (canonical_insert _ t)]
  have hc : (List.replicate n newline ++ (t ++ [newline])).count newline = n + 1 := by
    rw [List.count_append, List.count_append, List.count_replicate_self,
      List.count_eq_zero.mpr ht, List.count_singleton]
    simp
  rw [hc]

/-- Counterexample to claim C18 as stated.  After loading a file of `2^31 - 1`
terminators into the fresh document `countLines` is `2^31 - 1`; inserting the
text "x", which holds no terminator, makes the `int` counter wrap to `-2^31`
instead of raising the count by 1. -/
theorem insert_wraps_line_count :
    newline ∉ "x".toList ∧
    countLines (run [Op.loadFromFile (some (List.replicate 2147483647 newline))]
      fresh).currentContent = 2147483647 ∧
    countLines (insertText "x".toList
      (run [Op.loadFromFile (some (List.replicate 2147483647 newline))]
        fresh)).1.currentContent = -2147483648 ∧
    countLines (insertText "x".toList
      (run [Op.loadFromFile (some (List.replicate 2147483647 newline))]
        fresh)).1.currentContent
      ≠ countLines (run [Op.loadFromFile (some (List.replicate 2147483647 newline))]
        fresh).currentContent + 1 := by
  have hx : newline ∉ "x".toList := by decide
  have hrun := run_single_load (List.replicate 2147483647 newline)
    (replicate_newline_canonical 2147483647 (by omega))
  have hb : countLines (run [Op.loadFromFile (some (List.replicate 2147483647 newline))]
      fresh).currentContent = 2147483647 := by
    rw [hrun, countLines_replicate_newline 2147483647 (by omega)]
    exact toInt32_int_max
  have ha : countLines (insertText "x".toList
      (run [Op.loadFromFile (some (List.replicate 2147483647 newline))]
        fresh)).1.currentContent = -2147483648 := by
    rw [insertText_content, hrun, countLines_replicate_insert 2147483647 "x".toList hx]
    exact toInt32_two_pow_31
  refine ⟨hx, hb, ha, ?_⟩
  rw [ha, hb]
  decide

/-! ## A source that opens but cannot be read -/

/-- Counterexample to claim C12 as stated.  A source that can be opened but
not read (a directory, say) passes the `is_open()` test and delivers no
bytes.  The load is not rejected: it prints `Document loaded`, pushes a
snapshot, discards the redo history and empties the content. -/
theorem unreadable_source_changes_state :
    loadFromFile (some [])
        (VersionedDocument.mk "a\nb\n".toList ["a\n".toList, []] ["a\nb\nc\n".toList])
      = (VersionedDocument.mk [] ["a\nb\n".toList, "a\n".toList, []] [],
          Message.documentLoaded) ∧
    (loadFromFile (some [])
        (VersionedDocument.mk "a\nb\n".toList ["a\n".toList, []] ["a\nb\nc\n".toList])).1
      ≠ VersionedDocument.mk "a\nb\n".toList ["a\n".toList, []] ["a\nb\nc\n".toList] := by
  decide

end VersionedDocumentTracker
